import Mathlib

/-!
Verification of the event-dispatch core of the `ra_lsp_server` crate:
shallow embedding of `src/crates/ra_lsp_server/src/conv.rs` and
`src/crates/ra_lsp_server/src/main_loop.rs`, together with theorems about
the specified behaviour.
-/

namespace RaLsp

/-! ## Coordinate translator (conv.rs)

Text is represented as a list of characters; offsets are UTF-8 byte
offsets, columns are counted in UTF-16 code units. -/

/-- UTF-8 byte length of one character (1 to 4 bytes). -/
def charUtf8Size (c : Char) : Nat :=
  if c.toNat ≤ 0x7F then 1
  else if c.toNat ≤ 0x7FF then 2
  else if c.toNat ≤ 0xFFFF then 3
  else 4

/-- UTF-16 code-unit length of one character (surrogate pairs count 2). -/
def charUtf16Size (c : Char) : Nat :=
  if c.toNat ≥ 0x10000 then 2 else 1

/-- UTF-8 byte length of a text, the embedding of TextUnit.of_str. -/
def utf8Length : List Char → Nat
  | [] => 0
  | c :: cs => charUtf8Size c + utf8Length cs

/-- A (line, UTF-16 column) pair, the embedding of ra_editor LineCol. -/
structure LineCol where
  line : Nat
  col_utf16 : Nat
deriving DecidableEq

/-- Worker for lineColOf: walk the text, consuming the offset byte by
byte, tracking the current line and UTF-16 column. -/
def lineColGo : List Char → Nat → Nat → Nat → LineCol
  | [], _, line, col => ⟨line, col⟩
  | _ :: _, 0, line, col => ⟨line, col⟩
  | c :: cs, o + 1, line, col =>
    if charUtf8Size c ≤ o + 1 then
      if c = '\n' then lineColGo cs (o + 1 - charUtf8Size c) (line + 1) 0
      else lineColGo cs (o + 1 - charUtf8Size c) line (col + charUtf16Size c)
    else ⟨line, col⟩

/-- Modelled from the spec: the LineIndex structure lives in the
ra_editor crate, which is not part of the sources under verification.
Per the spec it answers (byte offset) to (line, UTF-16 column) queries:
the line is the number of newline characters wholly before the offset
and the column counts the UTF-16 code units since the last newline. -/
def lineColOf (text : List Char) (offset : Nat) : LineCol :=
  lineColGo text offset 0 0

/-- A half-open byte range, the embedding of TextRange. -/
structure TextRangeM where
  start : Nat
  stop : Nat
deriving DecidableEq

/-- A single-range edit, the embedding of ra_editor AtomEdit: a delete
range interpreted against the pre-edit text plus a replacement text. -/
structure AtomEdit where
  delete : TextRangeM
  insert : List Char
deriving DecidableEq

/-- Embedding of `translate_offset_with_edit` from conv.rs: translate an
offset in post-edit coordinates to a pre-edit (line, UTF-16 column)
using only the pre-edit line index and the first pending edit. -/
def translate_offset_with_edit (pre_edit_index : List Char) (offset : Nat)
    (edits : List AtomEdit) : LineCol :=
  let fallback := lineColOf pre_edit_index offset
  match edits.head? with
  | none => fallback
  | some edit =>
    let end_offset := edit.delete.start + utf8Length edit.insert
    if ¬(edit.delete.start ≤ offset ∧ offset ≤ end_offset) then fallback
    else
      let rel_offset := offset - edit.delete.start
      let in_edit_line_col := lineColOf edit.insert rel_offset
      let edit_line_col := lineColOf pre_edit_index edit.delete.start
      if in_edit_line_col.line = 0 then
        ⟨edit_line_col.line, edit_line_col.col_utf16 + in_edit_line_col.col_utf16⟩
      else
        ⟨edit_line_col.line + in_edit_line_col.line, in_edit_line_col.col_utf16⟩

/-- The translation policy exactly as the spec words it: no edits means
the plain pre-edit mapping; otherwise, with start and end taken from the
first edit, an offset outside [start, end] gets the plain mapping, and
an offset inside is mapped through a line index over the insert text
alone and recombined with the pre-edit position of start. -/
def translateOffsetSpec (pre_edit_index : List Char) (offset : Nat)
    (edits : List AtomEdit) : LineCol :=
  match edits.head? with
  | none => lineColOf pre_edit_index offset
  | some edit =>
    let start := edit.delete.start
    let stop := start + utf8Length edit.insert
    if offset < start ∨ offset > stop then lineColOf pre_edit_index offset
    else
      let d := lineColOf edit.insert (offset - start)
      let base := lineColOf pre_edit_index start
      if d.line = 0 then ⟨base.line, base.col_utf16 + d.col_utf16⟩
      else ⟨base.line + d.line, d.col_utf16⟩

/-- C1: the edit-aware translation implemented in conv.rs follows the
specified policy exactly, for every pre-edit text, offset and edit
list. -/
theorem translate_offset_with_edit_follows_spec (t : List Char) (o : Nat)
    (es : List AtomEdit) :
    translate_offset_with_edit t o es = translateOffsetSpec t o es := by
  cases es with
  | nil => rfl
  | cons e rest =>
    show (if ¬(e.delete.start ≤ o ∧ o ≤ e.delete.start + utf8Length e.insert)
            then lineColOf t o
          else _)
        = (if o < e.delete.start ∨ o > e.delete.start + utf8Length e.insert
            then lineColOf t o
          else _)
    by_cases h : e.delete.start ≤ o ∧ o ≤ e.delete.start + utf8Length e.insert
    · have h2 : ¬(o < e.delete.start ∨ o > e.delete.start + utf8Length e.insert) := by
        omega
      simp only [h, not_true_eq_false, if_false, h2]
      rfl
    · have h2 : o < e.delete.start ∨ o > e.delete.start + utf8Length e.insert := by
        omega
      simp only [h, not_false_eq_true, if_true, h2]

/-- C9: a single insert-edit of the text "x" at offset s, queried at
offset o = s, yields exactly the plain pre-edit (line, UTF-16 column)
of s. -/
theorem translate_at_insert_start_eq_plain (t : List Char) (s : Nat)
    (h : s ≤ utf8Length t) :
    translate_offset_with_edit t s [⟨⟨s, s⟩, ['x']⟩] = lineColOf t s := by
  show (if ¬(s ≤ s ∧ s ≤ s + utf8Length ['x']) then lineColOf t s else _)
      = lineColOf t s
  have hc : s ≤ s ∧ s ≤ s + utf8Length ['x'] := by omega
  simp only [hc, not_true_eq_false, if_false]
  have hrel : s - s = 0 := Nat.sub_self s
  rw [hrel]
  have hx : lineColOf ['x'] 0 = ⟨0, 0⟩ := rfl
  rw [hx]
  simp only [if_pos rfl]
  rcases hlc : lineColOf t s with ⟨l, c⟩
  simp

/-- Witness for C9 at a concrete text and offset. -/
theorem translate_at_insert_start_eq_plain_witness :
    1 ≤ utf8Length ['a', 'b'] ∧
      translate_offset_with_edit ['a', 'b'] 1 [⟨⟨1, 1⟩, ['x']⟩] =
        lineColOf ['a', 'b'] 1 :=
  ⟨by decide, translate_at_insert_start_eq_plain ['a', 'b'] 1 (by decide)⟩

/-! ## Protocol messages and error codes (main_loop.rs, gen_lsp_server)

Request ids are the client-assigned integers; results and messages are
kept abstract as strings. The numeric error codes are the LSP protocol
constants used through the gen_lsp_server ErrorCode enum. -/

def methodNotFoundCode : Int := -32601

def internalErrorCode : Int := -32603

def requestCancelledCode : Int := -32800

def contentModifiedCode : Int := -32801

/-- Embedding of RawResponse: either a success response or an error
response, both addressed to a request id. -/
inductive RawResponseM where
  | ok (id : Nat) (result : String)
  | err (id : Nat) (code : Int) (message : String)
deriving DecidableEq

/-- The request id a response is addressed to. -/
def respId : RawResponseM → Nat
  | .ok id _ => id
  | .err id _ _ => id

/-- Embedding of the Task enum of main_loop.rs: a response addressed to
a pending request id, or an unsolicited notification. -/
inductive TaskM where
  | Respond (resp : RawResponseM)
  | Notify (msg : String)
deriving DecidableEq

/-- Embedding of the outbound RawMessage shapes the loop sends. -/
inductive RawMessageM where
  | Response (resp : RawResponseM)
  | Notification (msg : String)
deriving DecidableEq

/-! ## Handler error classification (PoolDispatcher::on)

The failure::Error values a handler can return, flattened to the three
cases the dispatcher distinguishes: a typed LspError, an error whose
cause chain contains the Canceled marker, and any other error together
with its display text and backtrace. -/

inductive HandlerError where
  | lspError (code : Int) (message : String)
  | canceledMarker
  | otherError (display : String) (backtrace : String)
deriving DecidableEq

/-- Embedding of e.downcast::<LspError>(): succeeds exactly on the
LspError case, otherwise gives the error back. -/
def downcastLsp : HandlerError → Except HandlerError (Int × String)
  | .lspError code message => .ok (code, message)
  | e => .error e

/-- Embedding of is_canceled: does the cause chain contain Canceled. -/
def is_canceled : HandlerError → Bool
  | .canceledMarker => true
  | _ => false

/-- Display text of an error, for the InternalError message. -/
def errDisplay : HandlerError → String
  | .lspError _ message => message
  | .canceledMarker => "canceled"
  | .otherError display _ => display

/-- Backtrace text of an error, for the InternalError message. -/
def errBacktrace : HandlerError → String
  | .otherError _ backtrace => backtrace
  | _ => ""

/-- Embedding of the closure body PoolDispatcher::on runs on the pool:
build the response for one handler outcome, following the match and
downcast structure of the source. -/
def respondToResult (id : Nat) (r : Except HandlerError String) : RawResponseM :=
  match r with
  | .ok resp => .ok id resp
  | .error e =>
    match downcastLsp e with
    | .ok (code, message) => .err id code message
    | .error e =>
      if is_canceled e then
        .err id contentModifiedCode "content modified"
      else
        .err id internalErrorCode (errDisplay e ++ "\n" ++ errBacktrace e)

/-- The tasks the pool closure sends for one handler outcome: exactly
one Respond task carrying the built response. -/
def handlerTasks (id : Nat) (r : Except HandlerError String) : List TaskM :=
  [TaskM.Respond (respondToResult id r)]

/-- The classification exactly as the spec words it: LspError code and
message verbatim; else Cancelled in the cause chain gives ContentModified
with message "content modified"; else InternalError with the formatted
error plus backtrace; success gives a success response. -/
def respondSpec (id : Nat) (r : Except HandlerError String) : RawResponseM :=
  match r with
  | .ok v => .ok id v
  | .error (.lspError code message) => .err id code message
  | .error .canceledMarker => .err id contentModifiedCode "content modified"
  | .error (.otherError display backtrace) =>
      .err id internalErrorCode (display ++ "\n" ++ backtrace)

/-- C5: for every handler outcome the dispatcher sends exactly one
response task, classified as the spec states: LspError passes through
its code and message, a Cancelled cause chain becomes ContentModified
with message "content modified", anything else becomes InternalError
with the formatted error plus backtrace, and success becomes exactly one
success response. -/
theorem handler_error_classification (id : Nat) (r : Except HandlerError String) :
    handlerTasks id r = [TaskM.Respond (respondSpec id r)] := by
  cases r with
  | ok v => rfl
  | error e => cases e <;> rfl

/-! ## Pool dispatcher routing (PoolDispatcher, finish)

A raw request is its id plus its method name; an `on` routing call for
a request type is characterized by the method it deserializes. -/

/-- Embedding of RawRequest: id and method. -/
structure RawRequestM where
  id : Nat
  method : String
deriving DecidableEq

/-- Embedding of the PoolDispatcher fields the routing logic uses: the
optional not-yet-routed request and the optional registered id. -/
structure PoolDispatcherM where
  req : Option RawRequestM
  res : Option Nat
deriving DecidableEq

/-- The dispatcher as built by on_request: carrying the request, with no
registered id. -/
def dispatcherInit (r : RawRequestM) : PoolDispatcherM :=
  { req := some r, res := none }

/-- Embedding of PoolDispatcher::on for the request type with method m:
with no carried request it is the identity; if the carried request casts
to the method it is consumed, the work is spawned on the pool and its id
is registered; otherwise the request is put back for the next call. -/
def dispatcherOn (m : String) (d : PoolDispatcherM) : PoolDispatcherM :=
  match d.req with
  | none => d
  | some r =>
    if r.method = m then { req := none, res := some r.id }
    else { req := some r, res := d.res }

/-- Embedding of PoolDispatcher::finish. The source match has an
unreachable arm for the remaining cases, modelled as none. -/
def dispatcherFinish (d : PoolDispatcherM) : Option (Sum Nat RawRequestM) :=
  match d.res, d.req with
  | some res, none => some (Sum.inl res)
  | none, some req => some (Sum.inr req)
  | _, _ => none

/-- Run a chain of routing calls, one per request method, as on_request
does. -/
def dispatcherRun (r : RawRequestM) (methods : List String) : PoolDispatcherM :=
  methods.foldl (fun d m => dispatcherOn m d) (dispatcherInit r)

/-- After processing the chain from a state holding exactly a routed id,
every further call is the identity. -/
theorem dispatcherRun_routed (methods : List String) (id : Nat) :
    methods.foldl (fun d m => dispatcherOn m d) ⟨none, some id⟩ =
      (⟨none, some id⟩ : PoolDispatcherM) := by
  induction methods with
  | nil => rfl
  | cons m rest ih => exact ih

/-- C7: for every request and every chain of routing calls, finalization
yields the registered request id when some route matched and the
original request unchanged when none did, and never the unreachable
branch. -/
theorem dispatcher_finish_total (r : RawRequestM) (methods : List String) :
    dispatcherFinish (dispatcherRun r methods) =
      some (if r.method ∈ methods then Sum.inl r.id else Sum.inr r) := by
  unfold dispatcherRun
  induction methods with
  | nil => rfl
  | cons m rest ih =>
    by_cases hm : r.method = m
    · simp only [List.foldl_cons, List.mem_cons]
      have h1 : dispatcherOn m (dispatcherInit r) = ⟨none, some r.id⟩ := by
        simp [dispatcherOn, dispatcherInit, hm]
      rw [h1, dispatcherRun_routed]
      simp [dispatcherFinish, hm]
    · have h1 : dispatcherOn m (dispatcherInit r) = dispatcherInit r := by
        simp [dispatcherOn, dispatcherInit, hm]
      simp only [List.foldl_cons, h1, ih, List.mem_cons]
      simp [hm]

/-! ## Request lifecycle: pending requests and the outbound channel

The loop-thread state the request-lifecycle claims concern: the pending
request set (an FxHashSet of u64, modelled as a duplicate-free list) and
the transcript of messages sent on the outbound channel. -/

structure LoopOut where
  pending : List Nat
  outbound : List RawMessageM
deriving DecidableEq

/-- The state at loop entry: no pending requests, nothing sent. -/
def loopInit : LoopOut := ⟨[], []⟩

/-- The loop events that touch the pending set in main_loop.rs: a
request routed by the dispatcher, a worker task draining through
on_task, and a client Cancel notification. -/
inductive Act where
  | request (id : Nat)
  | task (t : TaskM)
  | cancel (id : Nat)
deriving DecidableEq

/-- Embedding of on_task: a Respond task is forwarded only when its id
is still pending, removing the id; a Respond task whose id is gone is
discarded. A Notify task is always forwarded. -/
def on_task (t : TaskM) (st : LoopOut) : LoopOut :=
  match t with
  | .Respond response =>
    if respId response ∈ st.pending then
      { pending := st.pending.erase (respId response),
        outbound := st.outbound ++ [RawMessageM.Response response] }
    else st
  | .Notify n =>
    { st with outbound := st.outbound ++ [RawMessageM.Notification n] }

/-- Embedding of the Cancel branch of on_notification: remove the id
from the pending set and, exactly when it was present, eagerly send a
RequestCancelled error response on the loop thread. -/
def on_cancel (id : Nat) (st : LoopOut) : LoopOut :=
  if id ∈ st.pending then
    { pending := st.pending.erase id,
      outbound := st.outbound ++
        [RawMessageM.Response
          (RawResponseM.err id requestCancelledCode "canceled by client")] }
  else st

/-- One loop turn of the lifecycle machine. Registering a routed request
id asserts it is newly inserted (on_request); the assertion failure on a
duplicate id is modelled as none. -/
def loopStep (st : LoopOut) (a : Act) : Option LoopOut :=
  match a with
  | .request id =>
    if id ∈ st.pending then none
    else some { st with pending := id :: st.pending }
  | .task t => some (on_task t st)
  | .cancel id => some (on_cancel id st)

/-- Run a sequence of loop events; none means an assertion fired. -/
def loopRun (st : LoopOut) : List Act → Option LoopOut
  | [] => some st
  | a :: acts =>
    match loopStep st a with
    | none => none
    | some st1 => loopRun st1 acts

/-- Number of routed-request events for a given id. -/
def cntReq (id : Nat) (acts : List Act) : Nat :=
  (acts.filter (fun a => a = Act.request id)).length

/-- The responses addressed to a given id within a message transcript. -/
def respsIn (id : Nat) (msgs : List RawMessageM) : List RawResponseM :=
  msgs.filterMap (fun m =>
    match m with
    | .Response r => if respId r = id then some r else none
    | .Notification _ => none)

theorem respsIn_append (id : Nat) (xs ys : List RawMessageM) :
    respsIn id (xs ++ ys) = respsIn id xs ++ respsIn id ys :=
  List.filterMap_append xs ys _

/-- Indicator of the id being pending. -/
def pendInd (id : Nat) (st : LoopOut) : Nat :=
  if id ∈ st.pending then 1 else 0

theorem loopRun_append (st : LoopOut) (xs ys : List Act) :
    loopRun st (xs ++ ys) =
      match loopRun st xs with
      | none => none
      | some m => loopRun m ys := by
  induction xs generalizing st with
  | nil => rfl
  | cons a rest ih =>
    simp only [List.cons_append, loopRun]
    cases hs : loopStep st a with
    | none => rfl
    | some st1 => exact ih st1

theorem loopStep_nodup (st st' : LoopOut) (a : Act)
    (h : loopStep st a = some st') (hn : st.pending.Nodup) :
    st'.pending.Nodup := by
  cases a with
  | request id =>
    by_cases hm : id ∈ st.pending
    · simp [loopStep, hm] at h
    · simp only [loopStep, hm, if_false] at h
      cases h
      exact List.nodup_cons.mpr ⟨hm, hn⟩
  | task t =>
    cases t with
    | Respond r =>
      simp only [loopStep, on_task] at h
      split at h <;> (cases h; first | exact hn.erase _ | exact hn)
    | Notify n =>
      simp only [loopStep, on_task] at h
      cases h
      exact hn
  | cancel id =>
    simp only [loopStep, on_cancel] at h
    split at h <;> (cases h; first | exact hn.erase _ | exact hn)

theorem loopRun_nodup (acts : List Act) (st st' : LoopOut)
    (h : loopRun st acts = some st') (hn : st.pending.Nodup) :
    st'.pending.Nodup := by
  induction acts generalizing st with
  | nil => cases h; exact hn
  | cons a rest ih =>
    simp only [loopRun] at h
    cases hs : loopStep st a with
    | none => rw [hs] at h; cases h
    | some st1 =>
      rw [hs] at h
      exact ih st1 h (loopStep_nodup st st1 a hs hn)

theorem loopStep_outbound_mono (st st' : LoopOut) (a : Act)
    (h : loopStep st a = some st') :
    ∃ l, st'.outbound = st.outbound ++ l := by
  cases a with
  | request id =>
    by_cases hm : id ∈ st.pending
    · simp [loopStep, hm] at h
    · simp only [loopStep, hm, if_false] at h
      cases h
      exact ⟨[], by simp⟩
  | task t =>
    cases t with
    | Respond r =>
      simp only [loopStep, on_task] at h
      split at h <;> cases h
      · exact ⟨_, rfl⟩
      · exact ⟨[], by simp⟩
    | Notify n =>
      simp only [loopStep, on_task] at h
      cases h
      exact ⟨_, rfl⟩
  | cancel id =>
    simp only [loopStep, on_cancel] at h
    split at h <;> cases h
    · exact ⟨_, rfl⟩
    · exact ⟨[], by simp⟩

theorem loopRun_outbound_mono (acts : List Act) (st st' : LoopOut)
    (h : loopRun st acts = some st') :
    ∃ l, st'.outbound = st.outbound ++ l := by
  induction acts generalizing st with
  | nil => cases h; exact ⟨[], by simp⟩
  | cons a rest ih =>
    simp only [loopRun] at h
    cases hs : loopStep st a with
    | none => rw [hs] at h; cases h
    | some st1 =>
      rw [hs] at h
      obtain ⟨l1, hl1⟩ := loopStep_outbound_mono st st1 a hs
      obtain ⟨l2, hl2⟩ := ih st1 h
      exact ⟨l1 ++ l2, by rw [hl2, hl1, List.append_assoc]⟩

theorem loopStep_balance (id : Nat) (st st' : LoopOut) (a : Act)
    (h : loopStep st a = some st') (hn : st.pending.Nodup) :
    (respsIn id st'.outbound).length + pendInd id st' =
      (respsIn id st.outbound).length + pendInd id st +
        (if a = Act.request id then 1 else 0) := by
  cases a with
  | request j =>
    by_cases hm : j ∈ st.pending
    · simp [loopStep, hm] at h
    · simp only [loopStep, hm, if_false] at h
      cases h
      by_cases hj : j = id
      · subst hj
        simp [pendInd, hm]
      · have hmem : (id ∈ j :: st.pending) ↔ id ∈ st.pending := by
          simp [Ne.symm hj]
        simp only [pendInd, hmem]
        simp [hj]
  | task t =>
    cases t with
    | Respond r =>
      simp only [loopStep, on_task] at h
      by_cases hm : respId r ∈ st.pending
      · rw [if_pos hm] at h
        cases h
        by_cases hr : respId r = id
        · subst hr
          simp [respsIn_append, respsIn, pendInd, hm, hn.not_mem_erase]
        · have hmem : (id ∈ st.pending.erase (respId r)) ↔ id ∈ st.pending :=
            List.mem_erase_of_ne (fun he => hr he.symm)
          simp only [pendInd, hmem]
          simp [respsIn_append, respsIn, hr]
      · rw [if_neg hm] at h
        cases h
        simp
    | Notify n =>
      simp only [loopStep, on_task] at h
      cases h
      simp [respsIn_append, respsIn, pendInd]
  | cancel j =>
    simp only [loopStep, on_cancel] at h
    by_cases hm : j ∈ st.pending
    · rw [if_pos hm] at h
      cases h
      by_cases hj : j = id
      · subst hj
        simp [respsIn_append, respsIn, respId, pendInd, hm, hn.not_mem_erase]
      · have hmem : (id ∈ st.pending.erase j) ↔ id ∈ st.pending :=
          List.mem_erase_of_ne (fun he => hj he.symm)
        simp only [pendInd, hmem]
        simp [respsIn_append, respsIn, respId, hj]
    · rw [if_neg hm] at h
      cases h
      simp

theorem loopRun_balance (id : Nat) (acts : List Act) (st st' : LoopOut)
    (h : loopRun st acts = some st') (hn : st.pending.Nodup) :
    (respsIn id st'.outbound).length + pendInd id st' =
      (respsIn id st.outbound).length + pendInd id st + cntReq id acts := by
  induction acts generalizing st with
  | nil => cases h; simp [cntReq]
  | cons a rest ih =>
    simp only [loopRun] at h
    cases hs : loopStep st a with
    | none => rw [hs] at h; cases h
    | some st1 =>
      rw [hs] at h
      have hstep := loopStep_balance id st st1 a hs hn
      have hrest := ih st1 h (loopStep_nodup st st1 a hs hn)
      have hcnt : cntReq id (a :: rest) =
          (if a = Act.request id then 1 else 0) + cntReq id rest := by
        by_cases ha : a = Act.request id <;>
          simp_arith [cntReq, List.filter_cons, ha]
      omega

theorem loopStep_frozen (id : Nat) (st st' : LoopOut) (a : Act)
    (h : loopStep st a = some st') (hout : id ∉ st.pending)
    (hreq : a ≠ Act.request id) :
    respsIn id st'.outbound = respsIn id st.outbound ∧ id ∉ st'.pending := by
  cases a with
  | request j =>
    by_cases hm : j ∈ st.pending
    · simp [loopStep, hm] at h
    · simp only [loopStep, hm, if_false] at h
      cases h
      have hj : j ≠ id := fun hje => hreq (by rw [hje])
      exact ⟨rfl, by simp [Ne.symm hj, hout]⟩
  | task t =>
    cases t with
    | Respond r =>
      simp only [loopStep, on_task] at h
      by_cases hm : respId r ∈ st.pending
      · rw [if_pos hm] at h
        cases h
        have hr : respId r ≠ id := fun hre => hout (hre ▸ hm)
        constructor
        · simp [respsIn_append, respsIn, hr]
        · exact fun hmem => hout (List.mem_of_mem_erase hmem)
      · rw [if_neg hm] at h
        cases h
        exact ⟨rfl, hout⟩
    | Notify n =>
      simp only [loopStep, on_task] at h
      cases h
      exact ⟨by simp [respsIn_append, respsIn], hout⟩
  | cancel j =>
    simp only [loopStep, on_cancel] at h
    by_cases hm : j ∈ st.pending
    · rw [if_pos hm] at h
      cases h
      have hj : j ≠ id := fun hje => hout (hje ▸ hm)
      constructor
      · simp [respsIn_append, respsIn, respId, hj]
      · exact fun hmem => hout (List.mem_of_mem_erase hmem)
    · rw [if_neg hm] at h
      cases h
      exact ⟨rfl, hout⟩

theorem loopRun_frozen (id : Nat) (acts : List Act) (st st' : LoopOut)
    (h : loopRun st acts = some st') (hout : id ∉ st.pending)
    (hreq : cntReq id acts = 0) :
    respsIn id st'.outbound = respsIn id st.outbound ∧ id ∉ st'.pending := by
  induction acts generalizing st with
  | nil => cases h; exact ⟨rfl, hout⟩
  | cons a rest ih =>
    simp only [loopRun] at h
    cases hs : loopStep st a with
    | none => rw [hs] at h; cases h
    | some st1 =>
      rw [hs] at h
      have ha : a ≠ Act.request id := by
        intro he
        subst he
        simp [cntReq] at hreq
      have hrest0 : cntReq id rest = 0 := by
        simp only [cntReq, List.filter_cons] at hreq
        split at hreq
        · simp at hreq
        · exact hreq
      obtain ⟨h1, h2⟩ := loopStep_frozen id st st1 a hs hout ha
      obtain ⟨h3, h4⟩ := ih st1 h h2 hrest0
      exact ⟨h1 ▸ h3, h4⟩

/-- C8: the pending-request set never contains duplicate ids along any
panic-free run from loop entry, and routing a request whose id is
already pending is the fatal assertion failure, not a recoverable
state. -/
theorem pending_requests_no_duplicates (acts : List Act) (st : LoopOut)
    (h : loopRun loopInit acts = some st) :
    st.pending.Nodup ∧
      ∀ id, id ∈ st.pending → loopStep st (Act.request id) = none := by
  refine ⟨loopRun_nodup acts loopInit st h (by simp [loopInit]), ?_⟩
  intro id hid
  simp [loopStep, hid]

/-- Witness for C8: a concrete run, its duplicate-free pending set, and
the assertion firing on a duplicate registration. -/
theorem pending_requests_no_duplicates_witness :
    loopRun loopInit [Act.request 7] = some ⟨[7], []⟩ ∧
      (List.Nodup [7] ∧
        loopStep ⟨[7], []⟩ (Act.request 7) = none) := by
  have h0 : loopRun loopInit [Act.request 7] = some ⟨[7], []⟩ := by decide
  have h := pending_requests_no_duplicates [Act.request 7] ⟨[7], []⟩ h0
  exact ⟨h0, h.1, h.2 7 (by decide)⟩

/-- C3: along any panic-free run from loop entry in which a given id is
routed at most once, at most one response with that id reaches the
outbound channel; and if a client Cancel arrives while the id is
pending, the final transcript contains exactly one response for that id,
the eager RequestCancelled error, so any late handler response was
discarded. -/
theorem at_most_one_response_per_id (acts : List Act) (id : Nat) (st : LoopOut)
    (hrun : loopRun loopInit acts = some st)
    (honce : cntReq id acts ≤ 1) :
    (respsIn id st.outbound).length ≤ 1 ∧
      ∀ pre post stp, acts = pre ++ Act.cancel id :: post →
        loopRun loopInit pre = some stp → id ∈ stp.pending →
        respsIn id st.outbound =
          [RawResponseM.err id requestCancelledCode "canceled by client"] := by
  have hnil : (loopInit.pending.Nodup) := by simp [loopInit]
  have hbal := loopRun_balance id acts loopInit st hrun hnil
  have hinit1 : respsIn id loopInit.outbound = [] := rfl
  have hinit2 : pendInd id loopInit = 0 := by simp [pendInd, loopInit]
  constructor
  · rw [hinit1, hinit2] at hbal
    simp only [List.length_nil] at hbal
    omega
  · intro pre post stp heq hpre hpend
    subst heq
    -- split the run at the cancel
    have hsplit := loopRun_append loopInit pre (Act.cancel id :: post)
    rw [hrun, hpre] at hsplit
    -- the cancel step from stp
    have hstpn : stp.pending.Nodup := loopRun_nodup pre loopInit stp hpre hnil
    have hbalpre := loopRun_balance id pre loopInit stp hpre hnil
    rw [hinit1, hinit2] at hbalpre
    simp only [List.length_nil] at hbalpre
    have hpind : pendInd id stp = 1 := by simp [pendInd, hpend]
    -- the id was routed exactly once, inside the prefix
    have hcnts : cntReq id (pre ++ Act.cancel id :: post) =
        cntReq id pre + cntReq id post := by
      simp [cntReq, List.filter_append, List.filter_cons]
    have hzero : (respsIn id stp.outbound).length = 0 := by omega
    have hpost0 : cntReq id post = 0 := by omega
    have hemp : respsIn id stp.outbound = [] :=
      List.length_eq_zero.mp hzero
    -- the eager cancel response
    set stc : LoopOut :=
      ⟨stp.pending.erase id,
        stp.outbound ++
          [RawMessageM.Response
            (RawResponseM.err id requestCancelledCode "canceled by client")]⟩
      with hstc
    have hcanc : loopStep stp (Act.cancel id) = some stc := by
      simp [loopStep, on_cancel, hpend, hstc]
    have hrunpost : loopRun stc post = some st := by
      simp only [loopRun, hcanc] at hsplit
      exact hsplit.symm
    have hcout : respsIn id stc.outbound =
        [RawResponseM.err id requestCancelledCode "canceled by client"] := by
      rw [hstc]
      simp only [respsIn_append, hemp]
      simp [respsIn, respId]
    have hcpend : id ∉ stc.pending := by
      rw [hstc]
      exact hstpn.not_mem_erase
    obtain ⟨hfr, _⟩ := loopRun_frozen id post stc st hrunpost hcpend hpost0
    rw [hfr, hcout]

/-- Witness for C3: the request with id 7 is routed, cancelled while
pending, and the late success response from the worker is discarded; the
transcript holds exactly the RequestCancelled response. -/
theorem at_most_one_response_per_id_witness :
    loopRun loopInit
        [Act.request 7, Act.cancel 7,
          Act.task (TaskM.Respond (RawResponseM.ok 7 "late"))] =
      some ⟨[], [RawMessageM.Response
        (RawResponseM.err 7 requestCancelledCode "canceled by client")]⟩ ∧
      (respsIn 7 [RawMessageM.Response
          (RawResponseM.err 7 requestCancelledCode "canceled by client")]).length ≤ 1 ∧
      respsIn 7 [RawMessageM.Response
          (RawResponseM.err 7 requestCancelledCode "canceled by client")] =
        [RawResponseM.err 7 requestCancelledCode "canceled by client"] := by
  have h0 : loopRun loopInit
      [Act.request 7, Act.cancel 7,
        Act.task (TaskM.Respond (RawResponseM.ok 7 "late"))] =
      some ⟨[], [RawMessageM.Response
        (RawResponseM.err 7 requestCancelledCode "canceled by client")]⟩ := by
    decide
  have h := at_most_one_response_per_id
    [Act.request 7, Act.cancel 7,
      Act.task (TaskM.Respond (RawResponseM.ok 7 "late"))] 7
    ⟨[], [RawMessageM.Response
      (RawResponseM.err 7 requestCancelledCode "canceled by client")]⟩
    h0 (by decide)
  exact ⟨h0, h.1,
    h.2 [Act.request 7]
      [Act.task (TaskM.Respond (RawResponseM.ok 7 "late"))]
      ⟨[7], []⟩ rfl (by decide) (by decide)⟩

/-! ## Workspace-loaded feedback (main_loop_inner, feedback)

The part of the world state the feedback check reads is the counter of
workspace roots still being scanned. -/

structure WorldRoots where
  roots_to_scan : Nat
deriving DecidableEq

/-- Modelled from the spec: ServerWorldState::add_lib lives outside the
sources under verification; per the spec the counter decrements as each
root finishes indexing, which happens when its library data arrives. -/
def add_lib (s : WorldRoots) : WorldRoots :=
  ⟨s.roots_to_scan - 1⟩

/-- Embedding of the feedback function: in internal mode send the one
notification, otherwise send nothing. -/
def feedback (internal_mode : Bool) (msg : String) : List String :=
  if internal_mode then [msg] else []

/-- The loop events that matter to the feedback check: arrival of an
indexed library versus any other event. -/
inductive TurnEvent where
  | lib
  | other
deriving DecidableEq

/-- One turn of main_loop_inner, restricted to the feedback-relevant
effects: a Lib event emits the "library loaded" feedback and merges the
library, and every turn ends by emitting the "workspace loaded" feedback
whenever roots_to_scan is zero. -/
def loop_turn (internal_mode : Bool) (s : WorldRoots) (e : TurnEvent) :
    WorldRoots × List String :=
  let step :=
    match e with
    | .lib => (add_lib s, feedback internal_mode "library loaded")
    | .other => (s, [])
  let out2 :=
    if step.1.roots_to_scan = 0 then feedback internal_mode "workspace loaded"
    else []
  (step.1, step.2 ++ out2)

/-- Run of the loop over a sequence of turns, collecting every feedback
notification sent. -/
def loopFeedbackRun (internal_mode : Bool) (s : WorldRoots) :
    List TurnEvent → WorldRoots × List String
  | [] => (s, [])
  | e :: rest =>
    let t := loop_turn internal_mode s e
    let r := loopFeedbackRun internal_mode t.1 rest
    (r.1, t.2 ++ r.2)

/-- Number of "workspace loaded" notifications in an output transcript. -/
def countWsLoaded (out : List String) : Nat :=
  (out.filter (fun m => m = "workspace loaded")).length

/-- Number of turns whose post-event state has a zero counter. -/
def countZeroTurns (s : WorldRoots) : List TurnEvent → Nat
  | [] => 0
  | e :: rest =>
    let s1 := (loop_turn true s e).1
    (if s1.roots_to_scan = 0 then 1 else 0) + countZeroTurns s1 rest

/-- Counterexample for C2: with internal mode on and one workspace root,
the Lib event that brings the counter to zero triggers the feedback, and
the very next (unrelated) loop turn emits it again: the notification is
not one-shot. -/
theorem workspace_loaded_twice :
    (loopFeedbackRun true ⟨1⟩ [TurnEvent.lib]).1.roots_to_scan = 0 ∧
      countWsLoaded (loopFeedbackRun true ⟨1⟩ [TurnEvent.lib]).2 = 1 ∧
      countWsLoaded
        (loopFeedbackRun true ⟨1⟩ [TurnEvent.lib, TurnEvent.other]).2 = 2 := by
  decide

/-- C2 (amended): in internal mode the "workspace loaded" feedback is
emitted once on every loop turn whose end-of-turn counter is zero, so
the total number of emissions equals the number of such turns rather
than one; with internal mode off nothing is emitted. -/
theorem workspace_loaded_per_turn (internal_mode : Bool) (s : WorldRoots)
    (events : List TurnEvent) :
    countWsLoaded (loopFeedbackRun internal_mode s events).2 =
      if internal_mode then countZeroTurns s events else 0 := by
  induction events generalizing s with
  | nil =>
    cases internal_mode <;>
      simp [loopFeedbackRun, countWsLoaded, countZeroTurns]
  | cons e rest ih =>
    have hsame : (loop_turn internal_mode s e).1 = (loop_turn true s e).1 := by
      cases e <;> rfl
    have hfil : countWsLoaded ((loop_turn internal_mode s e).2 ++
        (loopFeedbackRun internal_mode (loop_turn internal_mode s e).1 rest).2) =
        countWsLoaded (loop_turn internal_mode s e).2 +
          countWsLoaded
            (loopFeedbackRun internal_mode (loop_turn internal_mode s e).1 rest).2 := by
      simp [countWsLoaded, List.filter_append]
    have hturn : countWsLoaded (loop_turn internal_mode s e).2 =
        if internal_mode then
          (if (loop_turn true s e).1.roots_to_scan = 0 then 1 else 0)
        else 0 := by
      cases internal_mode <;> cases e <;>
        by_cases hz : (add_lib s).roots_to_scan = 0 <;>
        by_cases hz2 : s.roots_to_scan = 0 <;>
        simp_all [loop_turn, feedback, countWsLoaded, add_lib]
    show countWsLoaded ((loop_turn internal_mode s e).2 ++
        (loopFeedbackRun internal_mode (loop_turn internal_mode s e).1 rest).2) = _
    rw [hfil, hturn, ih, hsame]
    cases internal_mode <;> simp [countZeroTurns]

/-! ## VFS overlays and subscriptions (on_notification, vfs_ops)

Modelled from the spec where the collaborators live outside the sources
under verification: the Vfs overlay store (ra_vfs) is an overlay map,
the Uri to FileId mapping is total and bijective on VFS files, so Uri
and FileId are identified as one Nat here, and the Subscriptions module
(main_loop/subscriptions.rs) is a set with insert and remove. Overlay
installation is always accepted (valid local-path Uris); overlay removal
returns a FileId exactly when an overlay was present. The disk read the
watcher branch performs is modelled as text carried by the event. -/

inductive FileChangeType where
  | Created
  | Changed
  | Deleted
deriving DecidableEq

/-- The notification shapes the on_notification cast chain recognizes,
besides Cancel which is treated with the request lifecycle above. A
watch event carries its change type, the file, and the on-disk text. -/
inductive Notif where
  | didOpen (uri : Nat) (text : String)
  | didChange (uri : Nat) (content_changes : List String)
  | didClose (uri : Nat)
  | watch (events : List (FileChangeType × Nat × String))
  | unknown (method : String)
deriving DecidableEq

structure VfsState where
  overlays : List (Nat × String)
  subs : List Nat
deriving DecidableEq

def vfsInit : VfsState := ⟨[], []⟩

def lookupOverlay : List (Nat × String) → Nat → Option String
  | [], _ => none
  | p :: rest, u => if p.1 = u then some p.2 else lookupOverlay rest u

def removeOverlay : List (Nat × String) → Nat → List (Nat × String)
  | [], _ => []
  | p :: rest, u =>
    if p.1 = u then removeOverlay rest u else p :: removeOverlay rest u

def setOverlay (ovs : List (Nat × String)) (u : Nat) (text : String) :
    List (Nat × String) :=
  (u, text) :: removeOverlay ovs u

/-- Set insert, as the Subscriptions add operation. -/
def addSub (f : Nat) (subs : List Nat) : List Nat :=
  if f ∈ subs then subs else f :: subs

/-- Embedding of vfs_ops::add_file: install the overlay and subscribe
the returned FileId. -/
def add_file (st : VfsState) (uri : Nat) (text : String) : VfsState :=
  { overlays := setOverlay st.overlays uri text, subs := addSub uri st.subs }

/-- Embedding of vfs_ops::change_file: replace the overlay text, no
subscription change. -/
def change_file (st : VfsState) (uri : Nat) (text : String) : VfsState :=
  { st with overlays := setOverlay st.overlays uri text }

/-- Embedding of vfs_ops::remove_file: remove the overlay and, when a
FileId comes back (an overlay was present), unsubscribe it. The empty
diagnostics notification it also publishes does not touch this state. -/
def remove_file (st : VfsState) (uri : Nat) : VfsState :=
  if (lookupOverlay st.overlays uri).isSome then
    { overlays := removeOverlay st.overlays uri, subs := st.subs.erase uri }
  else st

/-- One DidChangeWatchedFiles event, as the watcher branch applies it:
Created reads the disk and adds, Changed reads the disk and changes,
Deleted removes. -/
def applyWatch (st : VfsState) (e : FileChangeType × Nat × String) : VfsState :=
  match e.1 with
  | .Created => add_file st e.2.1 e.2.2
  | .Changed => change_file st e.2.1 e.2.2
  | .Deleted => remove_file st e.2.1

/-- Embedding of on_notification (document lifecycle part): the cast
chain in order. An empty content-change list on DidChangeTextDocument is
the error the source builds with format_err. Unrecognized notifications
are logged and dropped. -/
def on_notification (st : VfsState) (n : Notif) : Except String VfsState :=
  match n with
  | .didOpen uri text => .ok (add_file st uri text)
  | .didChange uri content_changes =>
    match content_changes.getLast? with
    | none => .error "empty changes"
    | some text => .ok (change_file st uri text)
  | .didClose uri => .ok (remove_file st uri)
  | .watch events => .ok (events.foldl applyWatch st)
  | .unknown _ => .ok st

/-- The notification turns of main_loop_inner: on_notification is called
with the question-mark operator, so an error propagates and ends the
loop instead of being swallowed. -/
def processNotifs (st : VfsState) : List Notif → Except String VfsState
  | [] => .ok st
  | n :: rest =>
    match on_notification st n with
    | .error e => .error e
    | .ok st1 => processNotifs st1 rest

/-! Overlay map lemmas. -/

theorem lookup_removeOverlay_self (ovs : List (Nat × String)) (u : Nat) :
    lookupOverlay (removeOverlay ovs u) u = none := by
  induction ovs with
  | nil => rfl
  | cons p rest ih =>
    by_cases hp : p.1 = u
    · simp [removeOverlay, hp, ih]
    · simp [removeOverlay, lookupOverlay, hp, ih]

theorem lookup_removeOverlay_ne (ovs : List (Nat × String)) (u v : Nat)
    (h : v ≠ u) :
    lookupOverlay (removeOverlay ovs u) v = lookupOverlay ovs v := by
  have huv : ¬ u = v := fun he => h he.symm
  induction ovs with
  | nil => rfl
  | cons p rest ih =>
    by_cases hp : p.1 = u
    · have hv : ¬ p.1 = v := by rw [hp]; exact huv
      simp [removeOverlay, lookupOverlay, hp, hv, huv, ih]
    · by_cases hv : p.1 = v
      · simp [removeOverlay, lookupOverlay, hp, hv, h]
      · simp [removeOverlay, lookupOverlay, hp, hv, huv, ih]

theorem lookup_setOverlay (ovs : List (Nat × String)) (u v : Nat) (t : String) :
    lookupOverlay (setOverlay ovs u t) v =
      if u = v then some t else lookupOverlay ovs v := by
  by_cases huv : u = v
  · simp [setOverlay, lookupOverlay, huv]
  · simp only [setOverlay, lookupOverlay, huv, if_false]
    exact lookup_removeOverlay_ne ovs u v (fun he => huv he.symm)

theorem mem_addSub (f u : Nat) (subs : List Nat) :
    f ∈ addSub u subs ↔ f = u ∨ f ∈ subs := by
  by_cases hu : u ∈ subs
  · simp only [addSub, hu, if_true]
    constructor
    · exact Or.inr
    · rintro (rfl | hf)
      · exact hu
      · exact hf
  · simp [addSub, hu]

theorem nodup_addSub (u : Nat) (subs : List Nat) (h : subs.Nodup) :
    (addSub u subs).Nodup := by
  by_cases hu : u ∈ subs
  · simpa [addSub, hu] using h
  · simp only [addSub, hu, if_false]
    exact List.nodup_cons.mpr ⟨hu, h⟩

/-- The invariant the subscription proofs need: the subscription set is
duplicate-free and every subscribed file has an overlay installed. -/
def VfsInv (st : VfsState) : Prop :=
  st.subs.Nodup ∧ ∀ f ∈ st.subs, (lookupOverlay st.overlays f).isSome

theorem vfsInv_init : VfsInv vfsInit :=
  ⟨List.nodup_nil, fun f hf => absurd hf (List.not_mem_nil f)⟩

theorem vfsInv_add_file (st : VfsState) (u : Nat) (t : String)
    (h : VfsInv st) : VfsInv (add_file st u t) := by
  refine ⟨nodup_addSub u st.subs h.1, fun f hf => ?_⟩
  rw [show (add_file st u t).overlays = setOverlay st.overlays u t from rfl,
    lookup_setOverlay]
  by_cases huf : u = f
  · simp [huf]
  · rw [if_neg huf]
    rcases (mem_addSub f u st.subs).mp hf with rfl | hf2
    · exact absurd rfl huf
    · exact h.2 f hf2

theorem vfsInv_change_file (st : VfsState) (u : Nat) (t : String)
    (h : VfsInv st) : VfsInv (change_file st u t) := by
  refine ⟨h.1, fun f hf => ?_⟩
  rw [show (change_file st u t).overlays = setOverlay st.overlays u t from rfl,
    lookup_setOverlay]
  by_cases huf : u = f
  · simp [huf]
  · rw [if_neg huf]
    exact h.2 f hf

theorem vfsInv_remove_file (st : VfsState) (u : Nat)
    (h : VfsInv st) : VfsInv (remove_file st u) := by
  by_cases hp : (lookupOverlay st.overlays u).isSome
  · rw [show remove_file st u =
        ⟨removeOverlay st.overlays u, st.subs.erase u⟩ from by
      simp [remove_file, hp]]
    refine ⟨h.1.erase u, fun f hf => ?_⟩
    have hfs : f ∈ st.subs := List.mem_of_mem_erase hf
    have hfu : f ≠ u := (List.Nodup.mem_erase_iff h.1).mp hf |>.1
    rw [lookup_removeOverlay_ne st.overlays u f hfu]
    exact h.2 f hfs
  · rw [show remove_file st u = st from by simp [remove_file, hp]]
    exact h

/-- Subscription membership after add_file. -/
theorem mem_subs_add_file (st : VfsState) (u : Nat) (t : String) (f : Nat) :
    f ∈ (add_file st u t).subs ↔ f = u ∨ f ∈ st.subs :=
  mem_addSub f u st.subs

/-- Subscription membership after remove_file, under the invariant. -/
theorem mem_subs_remove_file (st : VfsState) (u : Nat) (f : Nat)
    (h : VfsInv st) :
    f ∈ (remove_file st u).subs ↔ f ∈ st.subs ∧ f ≠ u := by
  by_cases hp : (lookupOverlay st.overlays u).isSome
  · rw [show remove_file st u =
        ⟨removeOverlay st.overlays u, st.subs.erase u⟩ from by
      simp [remove_file, hp]]
    show f ∈ st.subs.erase u ↔ _
    rw [List.Nodup.mem_erase_iff h.1]
    tauto
  · rw [show remove_file st u = st from by simp [remove_file, hp]]
    constructor
    · intro hf
      refine ⟨hf, fun he => hp ?_⟩
      subst he
      exact h.2 f hf
    · exact fun hf => hf.1

theorem vfsInv_applyWatch (st : VfsState) (e : FileChangeType × Nat × String)
    (h : VfsInv st) : VfsInv (applyWatch st e) := by
  rcases e with ⟨ty, u, t⟩
  cases ty with
  | Created => exact vfsInv_add_file st u t h
  | Changed => exact vfsInv_change_file st u t h
  | Deleted => exact vfsInv_remove_file st u h

theorem vfsInv_watchFold (events : List (FileChangeType × Nat × String))
    (st : VfsState) (h : VfsInv st) : VfsInv (events.foldl applyWatch st) := by
  induction events generalizing st with
  | nil => exact h
  | cons e rest ih => exact ih (applyWatch st e) (vfsInv_applyWatch st e h)

theorem vfsInv_on_notification (st st' : VfsState) (n : Notif)
    (h : on_notification st n = .ok st') (hinv : VfsInv st) : VfsInv st' := by
  cases n with
  | didOpen uri text =>
    cases h; exact vfsInv_add_file st uri text hinv
  | didChange uri content_changes =>
    simp only [on_notification] at h
    cases hl : content_changes.getLast? with
    | none => rw [hl] at h; cases h
    | some text => rw [hl] at h; cases h; exact vfsInv_change_file st uri text hinv
  | didClose uri =>
    cases h; exact vfsInv_remove_file st uri hinv
  | watch events =>
    cases h; exact vfsInv_watchFold events st hinv
  | unknown m => cases h; exact hinv

/-! The last open-or-close touch of a file in a notification trace:
some true when the last relevant event opens it (DidOpen or watcher
Created), some false when the last relevant event closes it (DidClose or
watcher Deleted), none when no event touches it. -/

def touchWatchOne (f : Nat) (e : FileChangeType × Nat × String) : Option Bool :=
  match e.1 with
  | .Created => if e.2.1 = f then some true else none
  | .Changed => none
  | .Deleted => if e.2.1 = f then some false else none

def touchWatch (f : Nat) : List (FileChangeType × Nat × String) → Option Bool
  | [] => none
  | e :: rest =>
    match touchWatch f rest with
    | some b => some b
    | none => touchWatchOne f e

def openTouch (f : Nat) : Notif → Option Bool
  | .didOpen u _ => if u = f then some true else none
  | .didClose u => if u = f then some false else none
  | .watch events => touchWatch f events
  | _ => none

def lastOpenTouch (f : Nat) : List Notif → Option Bool
  | [] => none
  | n :: rest =>
    match lastOpenTouch f rest with
    | some b => some b
    | none => openTouch f n

/-- The characterization the claim C6 states: subscriptions as the files
opened by a client DidOpenTextDocument with no matching
DidCloseTextDocument, ignoring every other event. -/
def clientTouch (f : Nat) : Notif → Option Bool
  | .didOpen u _ => if u = f then some true else none
  | .didClose u => if u = f then some false else none
  | _ => none

def clientLastTouch (f : Nat) : List Notif → Option Bool
  | [] => none
  | n :: rest =>
    match clientLastTouch f rest with
    | some b => some b
    | none => clientTouch f n

theorem mem_subs_watchFold (events : List (FileChangeType × Nat × String))
    (st : VfsState) (f : Nat) (hinv : VfsInv st) :
    f ∈ (events.foldl applyWatch st).subs ↔
      (touchWatch f events = some true ∨
        (touchWatch f events = none ∧ f ∈ st.subs)) := by
  induction events generalizing st with
  | nil => simp [touchWatch]
  | cons e rest ih =>
    have hstep : f ∈ (applyWatch st e).subs ↔
        (touchWatchOne f e = some true ∨
          (touchWatchOne f e = none ∧ f ∈ st.subs)) := by
      rcases e with ⟨ty, u, t⟩
      cases ty with
      | Created =>
        rw [show applyWatch st (.Created, u, t) = add_file st u t from rfl,
          mem_subs_add_file]
        by_cases huf : u = f
        · simp [touchWatchOne, huf]
        · have : ¬ f = u := fun he => huf he.symm
          simp [touchWatchOne, huf, this]
      | Changed => simp [applyWatch, change_file, touchWatchOne]
      | Deleted =>
        rw [show applyWatch st (.Deleted, u, t) = remove_file st u from rfl,
          mem_subs_remove_file st u f hinv]
        by_cases huf : u = f
        · simp [touchWatchOne, huf]
        · have : ¬ f = u := fun he => huf he.symm
          simp [touchWatchOne, huf, this]
    rw [List.foldl_cons, ih (applyWatch st e) (vfsInv_applyWatch st e hinv),
      hstep]
    have hunfold : touchWatch f (e :: rest) =
        (match touchWatch f rest with
          | some b => some b
          | none => touchWatchOne f e) := rfl
    rw [hunfold]
    cases hr : touchWatch f rest with
    | some b => simp
    | none => simp

theorem mem_subs_on_notification (st st' : VfsState) (n : Notif) (f : Nat)
    (h : on_notification st n = .ok st') (hinv : VfsInv st) :
    f ∈ st'.subs ↔
      (openTouch f n = some true ∨
        (openTouch f n = none ∧ f ∈ st.subs)) := by
  cases n with
  | didOpen uri text =>
    cases h
    rw [mem_subs_add_file]
    by_cases huf : uri = f
    · simp [openTouch, huf]
    · have : ¬ f = uri := fun he => huf he.symm
      simp [openTouch, huf, this]
  | didChange uri content_changes =>
    simp only [on_notification] at h
    cases hl : content_changes.getLast? with
    | none => rw [hl] at h; cases h
    | some text =>
      rw [hl] at h; cases h
      simp [openTouch, change_file]
  | didClose uri =>
    cases h
    rw [mem_subs_remove_file st uri f hinv]
    by_cases huf : uri = f
    · simp [openTouch, huf]
    · have : ¬ f = uri := fun he => huf he.symm
      simp [openTouch, huf, this]
  | watch events =>
    cases h
    exact mem_subs_watchFold events st f hinv
  | unknown m =>
    cases h
    simp [openTouch]

theorem mem_subs_processNotifs (trace : List Notif) (st st' : VfsState)
    (f : Nat) (h : processNotifs st trace = .ok st') (hinv : VfsInv st) :
    f ∈ st'.subs ↔
      (lastOpenTouch f trace = some true ∨
        (lastOpenTouch f trace = none ∧ f ∈ st.subs)) := by
  induction trace generalizing st with
  | nil =>
    cases h
    simp [lastOpenTouch]
  | cons n rest ih =>
    simp only [processNotifs] at h
    cases hn : on_notification st n with
    | error e => rw [hn] at h; cases h
    | ok st1 =>
      rw [hn] at h
      have hstep := mem_subs_on_notification st st1 n f hn hinv
      have hrest := ih st1 h (vfsInv_on_notification st st1 n hn hinv)
      rw [hrest, hstep]
      have hunfold : lastOpenTouch f (n :: rest) =
          (match lastOpenTouch f rest with
            | some b => some b
            | none => openTouch f n) := rfl
      rw [hunfold]
      cases hr : lastOpenTouch f rest with
      | some b => simp
      | none => simp

/-- Counterexample for C6: a watcher Created event subscribes a file
that no client DidOpenTextDocument ever opened, so the subscription set
is not characterized by client open/close notifications alone. -/
theorem subscriptions_not_client_only :
    processNotifs vfsInit [Notif.watch [(FileChangeType.Created, 5, "t")]] =
        Except.ok ⟨[(5, "t")], [5]⟩ ∧
      5 ∈ (VfsState.mk [(5, "t")] [5]).subs ∧
      clientLastTouch 5 [Notif.watch [(FileChangeType.Created, 5, "t")]] =
        none :=
  ⟨rfl, by decide, rfl⟩

/-- C6 (amended): at every state reachable by processing a notification
trace, the subscription set is exactly the set of files whose last
opening or closing event — client DidOpen/DidClose or watcher
Created/Deleted, which also add and remove subscriptions — is an opening
one. -/
theorem subscriptions_characterization (trace : List Notif) (st : VfsState)
    (f : Nat) (h : processNotifs vfsInit trace = .ok st) :
    f ∈ st.subs ↔ lastOpenTouch f trace = some true := by
  rw [mem_subs_processNotifs trace vfsInit st f h vfsInv_init]
  simp [vfsInit]

/-- Witness for C6 at a concrete trace: an open followed by a watcher
delete of another file. -/
theorem subscriptions_characterization_witness :
    processNotifs vfsInit
        [Notif.didOpen 3 "t", Notif.watch [(FileChangeType.Deleted, 4, "")]] =
      Except.ok ⟨[(3, "t")], [3]⟩ ∧
      (3 ∈ (VfsState.mk [(3, "t")] [3]).subs ↔
        lastOpenTouch 3
            [Notif.didOpen 3 "t",
              Notif.watch [(FileChangeType.Deleted, 4, "")]] =
          some true) := by
  have h0 : processNotifs vfsInit
      [Notif.didOpen 3 "t", Notif.watch [(FileChangeType.Deleted, 4, "")]] =
      Except.ok ⟨[(3, "t")], [3]⟩ := rfl
  exact ⟨h0, subscriptions_characterization _ _ 3 h0⟩

/-- Counterexample for C4: a DidChangeTextDocument with an empty
content-change list does not leave the loop serving subsequent events;
the error propagates out of on_notification through the question-mark
operator and the loop run ends with the error, never processing the next
notification. -/
theorem empty_changes_ends_loop :
    processNotifs vfsInit
        [Notif.didChange 1 [], Notif.didChange 2 ["x"]] =
      Except.error "empty changes" ∧
      processNotifs vfsInit
          [Notif.didChange 1 [], Notif.didChange 2 ["x"]] ≠
        Except.ok ⟨[(2, "x")], []⟩ := by
  refine ⟨rfl, fun h => ?_⟩
  rw [show processNotifs vfsInit
      [Notif.didChange 1 [], Notif.didChange 2 ["x"]] =
      Except.error "empty changes" from rfl] at h
  cases h

/-- C4 (amended): a DidChangeTextDocument with an empty content-change
list mutates no overlay and makes the whole notification-processing run
return the "empty changes" error, ending the main loop, instead of
continuing with the remaining events; with a non-empty list the overlay
is changed to the text of the last content-change entry and processing
continues. -/
theorem did_change_text_document (st : VfsState) (uri : Nat)
    (content_changes : List String) (rest : List Notif) :
    processNotifs st (Notif.didChange uri content_changes :: rest) =
        (match content_changes.getLast? with
          | none => Except.error "empty changes"
          | some text => processNotifs (change_file st uri text) rest) ∧
      ∀ text, content_changes.getLast? = some text →
        lookupOverlay (change_file st uri text).overlays uri = some text := by
  constructor
  · show (match on_notification st (Notif.didChange uri content_changes) with
          | Except.error e => Except.error e
          | Except.ok st1 => processNotifs st1 rest) = _
    simp only [on_notification]
    cases hl : content_changes.getLast? with
    | none => simp
    | some text => simp
  · intro text _
    rw [show (change_file st uri text).overlays =
        setOverlay st.overlays uri text from rfl, lookup_setOverlay]
    simp

/-- Witness for C4 at a concrete state and change list. -/
theorem did_change_text_document_witness :
    processNotifs vfsInit (Notif.didChange 1 ["a", "b"] :: []) =
        (match (["a", "b"] : List String).getLast? with
          | none => Except.error "empty changes"
          | some text => processNotifs (change_file vfsInit 1 text) []) ∧
      lookupOverlay (change_file vfsInit 1 "b").overlays 1 = some "b" :=
  ⟨(did_change_text_document vfsInit 1 ["a", "b"] []).1,
    (did_change_text_document vfsInit 1 ["a", "b"] []).2 "b" rfl⟩

/-! ## FileSystemEdit conversion (TryConvWith for FileSystemEdit) -/

inductive FileSystemEditM where
  | CreateFile (anchor : Nat) (path : List Char)
  | MoveFile (file : Nat) (path : List Char)
deriving DecidableEq

inductive ReqFileSystemEditM where
  | CreateFile (uri : List Char)
  | MoveFile (src : List Char) (dst : List Char)
deriving DecidableEq

/-- Embedding of the Rust byte-slice expression path[n..] as a partial
operation: dropping n UTF-8 bytes succeeds exactly when n is a character
boundary of the path (a prefix of whole characters measures exactly n
bytes); otherwise the slice panics, modelled as none. -/
def dropBytes : List Char → Nat → Option (List Char)
  | cs, 0 => some cs
  | [], _ + 1 => none
  | c :: cs, n + 1 =>
    if charUtf8Size c ≤ n + 1 then dropBytes cs (n + 1 - charUtf8Size c)
    else none

/-- Modelled from the spec: file_id_to_uri and Url::join live outside
the sources under verification; a url is kept abstract as text and join
as concatenation, which the slicing claim does not depend on. -/
def urlJoin (base : List Char) (path : List Char) : List Char :=
  base ++ path

/-- Embedding of try_conv_with for FileSystemEdit: both variants slice
the first 3 bytes off the path (the literal [3..] with the strip ../
comment) and join the remainder onto the anchor or source url. -/
def fileSystemEditTryConv (file_id_to_uri : Nat → List Char) :
    FileSystemEditM → Option ReqFileSystemEditM
  | .CreateFile anchor path =>
    match dropBytes path 3 with
    | none => none
    | some p => some (.CreateFile (urlJoin (file_id_to_uri anchor) p))
  | .MoveFile file path =>
    match dropBytes path 3 with
    | none => none
    | some p =>
      some (.MoveFile (file_id_to_uri file) (urlJoin (file_id_to_uri file) p))

def pathOf : FileSystemEditM → List Char
  | .CreateFile _ path => path
  | .MoveFile _ path => path

theorem dropBytes_eq_none_iff (cs : List Char) (n : Nat) :
    dropBytes cs n = none ↔
      ¬ ∃ pre suf, cs = pre ++ suf ∧ utf8Length pre = n := by
  induction cs generalizing n with
  | nil =>
    cases n with
    | zero =>
      simp only [dropBytes]
      constructor
      · intro h; cases h
      · intro h; exact absurd ⟨[], [], rfl, rfl⟩ h
    | succ m =>
      simp only [dropBytes]
      constructor
      · rintro - ⟨pre, suf, h1, h2⟩
        rcases List.append_eq_nil.mp h1.symm with ⟨rfl, -⟩
        simp [utf8Length] at h2
      · intro _; trivial
  | cons c cs ih =>
    cases n with
    | zero =>
      simp only [dropBytes]
      constructor
      · intro h; cases h
      · intro h; exact absurd ⟨[], c :: cs, rfl, rfl⟩ h
    | succ m =>
      by_cases hle : charUtf8Size c ≤ m + 1
      · rw [show dropBytes (c :: cs) (m + 1) =
            dropBytes cs (m + 1 - charUtf8Size c) from by
          simp [dropBytes, hle]]
        rw [ih (m + 1 - charUtf8Size c)]
        constructor
        · rintro hno ⟨pre, suf, h1, h2⟩
          cases pre with
          | nil => simp [utf8Length] at h2
          | cons c2 pre2 =>
            rw [List.cons_append] at h1
            injection h1 with hc hcs
            subst hc
            simp only [utf8Length] at h2
            exact hno ⟨pre2, suf, hcs, by omega⟩
        · rintro hno ⟨pre2, suf, h1, h2⟩
          exact hno ⟨c :: pre2, suf, by rw [List.cons_append, h1],
            by simp only [utf8Length]; omega⟩
      · rw [show dropBytes (c :: cs) (m + 1) = none from by
          simp [dropBytes, hle]]
        constructor
        · rintro - ⟨pre, suf, h1, h2⟩
          cases pre with
          | nil => simp [utf8Length] at h2
          | cons c2 pre2 =>
            rw [List.cons_append] at h1
            injection h1 with hc hcs
            subst hc
            simp only [utf8Length] at h2
            omega
        · intro _; trivial

theorem fileSystemEditTryConv_eq_none (file_id_to_uri : Nat → List Char)
    (e : FileSystemEditM) :
    fileSystemEditTryConv file_id_to_uri e = none ↔
      dropBytes (pathOf e) 3 = none := by
  cases e with
  | CreateFile anchor path =>
    show (match dropBytes path 3 with
          | none => none
          | some p => some (ReqFileSystemEditM.CreateFile
              (urlJoin (file_id_to_uri anchor) p))) = none ↔ _
    cases h : dropBytes path 3 <;> simp [pathOf, h]
  | MoveFile file path =>
    show (match dropBytes path 3 with
          | none => none
          | some p => some (ReqFileSystemEditM.MoveFile (file_id_to_uri file)
              (urlJoin (file_id_to_uri file) p))) = none ↔ _
    cases h : dropBytes path 3 <;> simp [pathOf, h]

/-- C10: the conversion of either FileSystemEdit variant slices 3 bytes
off the path before joining; it fails (the slice panics) exactly when no
prefix of whole characters of the path measures 3 bytes — the path is
shorter than 3 bytes or byte 3 is not a character boundary — and always
succeeds when the path begins with the 3-byte prefix dot dot slash. -/
theorem file_system_edit_slices_three_bytes
    (file_id_to_uri : Nat → List Char) (e : FileSystemEditM) :
    (fileSystemEditTryConv file_id_to_uri e = none ↔
      ¬ ∃ pre suf, pathOf e = pre ++ suf ∧ utf8Length pre = 3) ∧
    (∀ rest, pathOf e = '.' :: '.' :: '/' :: rest →
      fileSystemEditTryConv file_id_to_uri e ≠ none) := by
  constructor
  · rw [fileSystemEditTryConv_eq_none, dropBytes_eq_none_iff]
  · intro rest hpath h
    rw [fileSystemEditTryConv_eq_none, hpath] at h
    rw [show dropBytes ('.' :: '.' :: '/' :: rest) 3 = some rest from by
      simp [dropBytes, charUtf8Size]] at h
    cases h

/-- Witness for C10: a concrete path with the dot dot slash prefix
converts successfully. -/
theorem file_system_edit_slices_three_bytes_witness :
    fileSystemEditTryConv (fun _ => [])
        (FileSystemEditM.CreateFile 0 ['.', '.', '/', 'a']) ≠ none :=
  (file_system_edit_slices_three_bytes (fun _ => [])
      (FileSystemEditM.CreateFile 0 ['.', '.', '/', 'a'])).2 ['a'] rfl

end RaLsp
